import Mathlib

/-!
# Verification of `pyghusk` — name normalization and pipeline properties

Shallow embedding of the relevant parts of the `pyghusk` repository
(`helpers.py`, `actions.py`, `pyghusk.py`, `consts.py`).  Strings are
modelled as `List Char`; the Unicode NFKD normalization performed by
`unicodedata.normalize("NFKD", ·)` is a parameter of the embedding
(together with a concrete table-backed instance for the characters
exercised by the examples), since its full table is external to the
repository.
-/

namespace Pyghusk

/-! ## Character-level helpers -/

/-- Word character under `re.ASCII`, i.e. `[a-zA-Z0-9_]` (used by
`re.sub(r"[^\w]", " ", s, flags=re.ASCII)` in `validate_name`). -/
def isWordChar (c : Char) : Bool :=
  decide ((97 ≤ c.toNat ∧ c.toNat ≤ 122) ∨ (65 ≤ c.toNat ∧ c.toNat ≤ 90) ∨
    (48 ≤ c.toNat ∧ c.toNat ≤ 57) ∨ c.toNat = 95)

/-- Lowercase ASCII word character: `[a-z0-9_]`. -/
def isLowerWordChar (c : Char) : Bool :=
  decide ((97 ≤ c.toNat ∧ c.toNat ≤ 122) ∨ (48 ≤ c.toNat ∧ c.toNat ≤ 57) ∨
    c.toNat = 95)

/-- ASCII alphanumeric character: `[a-zA-Z0-9]` (no underscore). -/
def isAlphanum (c : Char) : Bool :=
  decide ((97 ≤ c.toNat ∧ c.toNat ≤ 122) ∨ (65 ≤ c.toNat ∧ c.toNat ≤ 90) ∨
    (48 ≤ c.toNat ∧ c.toNat ≤ 57))

/-- ASCII uppercase letter `[A-Z]`. -/
def isUpperAscii (c : Char) : Bool :=
  decide (65 ≤ c.toNat ∧ c.toNat ≤ 90)

/-- The ASCII whitespace characters recognized by Python's `str.split()`
(the strings reaching `split()` in `validate_name` are ASCII-only, having
passed `encode("ascii", "ignore")`). -/
def isPySpace (c : Char) : Bool :=
  decide (c.toNat = 32 ∨ c.toNat = 9 ∨ c.toNat = 10 ∨ c.toNat = 13 ∨
    c.toNat = 11 ∨ c.toNat = 12)

/-- Python `str.lower()` restricted to ASCII (the strings reaching
`.lower()` in `validate_name` are ASCII-only). -/
def pyLower (c : Char) : Char :=
  if 65 ≤ c.toNat ∧ c.toNat ≤ 90 then Char.ofNat (c.toNat + 32) else c

/-- Python `str.upper()` restricted to ASCII (used by
`actions.build_readme` on the already-normalized project name). -/
def pyUpper (c : Char) : Char :=
  if 97 ≤ c.toNat ∧ c.toNat ≤ 122 then Char.ofNat (c.toNat - 32) else c

theorem toNat_ofNat_of_lt {n : Nat} (h : n < 55296) : (Char.ofNat n).toNat = n := by
  rw [Char.ofNat, dif_pos (Or.inl h)]
  rfl

/-! ## `validate_name` (helpers.py lines 164–185 / pyghusk.py lines 164–185) -/

/-- Models `normalized_name.encode("ascii", "ignore").decode()`:
drops every non-ASCII character. -/
def asciiIgnore (l : List Char) : List Char :=
  l.filter (fun c => decide (c.toNat < 128))

/-- Models `re.sub(r"[^\w]", " ", normalized_name, flags=re.ASCII)`:
every character outside `[a-zA-Z0-9_]` becomes a space. -/
def subNonWord (l : List Char) : List Char :=
  l.map (fun c => if isWordChar c then c else ' ')

/-- Helper for `splitWs`; `acc` holds the current word reversed. -/
def splitWsAux : List Char → List Char → List (List Char)
  | [], acc => if acc.isEmpty then [] else [acc.reverse]
  | c :: cs, acc =>
    if isPySpace c then
      if acc.isEmpty then splitWsAux cs [] else acc.reverse :: splitWsAux cs []
    else splitWsAux cs (c :: acc)

/-- Models Python `str.split()` with no arguments: split on runs of
whitespace, discarding leading/trailing whitespace and empty pieces. -/
def splitWs (l : List Char) : List (List Char) :=
  splitWsAux l []

/-- Models Python `sep.join(parts)` for a one-character separator. -/
def joinSep (sep : Char) : List (List Char) → List Char
  | [] => []
  | [t] => t
  | t :: ts => t ++ sep :: joinSep sep ts

/-- Embedding of `helpers.validate_name` / `pyghusk.validate_name`:

1. `unicodedata.normalize("NFKD", name)` — the parameter `nfkd`;
2. `.encode("ascii", "ignore").decode()` — `asciiIgnore`;
3. `re.sub(r"[^\w]", " ", ·, flags=re.ASCII)` — `subNonWord`;
4. `"-".join(·.split())` — `joinSep '-' (splitWs ·)`;
5. `.lower()` — `List.map pyLower`. -/
def validate_name (nfkd : List Char → List Char) (name : List Char) : List Char :=
  let normalized_name := asciiIgnore (nfkd name)
  let clean_name := subNonWord normalized_name
  let split_name := joinSep '-' (splitWs clean_name)
  split_name.map pyLower

/-- Single-character NFKD decomposition table for the characters exercised
in this development: `é` (U+00E9) decomposes to `e` + U+0301 and `à`
(U+00E0) to `a` + U+0300; every character with no canonical/compatibility
decomposition — in particular every ASCII character — maps to itself,
matching `unicodedata.normalize("NFKD", ·)`. -/
def nfkdChar (c : Char) : List Char :=
  if c = 'é' then ['e', Char.ofNat 769]
  else if c = 'à' then ['a', Char.ofNat 768]
  else [c]

/-- Concrete instance of the NFKD parameter, applied character-wise. -/
def nfkdU (l : List Char) : List Char :=
  (l.map nfkdChar).flatten

/-- NFKD is the identity on ASCII strings (ASCII characters have no
decomposition and combining-class 0); this is the only property of
`unicodedata.normalize("NFKD", ·)` the theorems rely on, and the concrete
table `nfkdU` satisfies it. -/
theorem nfkdU_ascii_fix (l : List Char) (h : ∀ c ∈ l, c.toNat < 128) :
    nfkdU l = l := by
  induction l with
  | nil => rfl
  | cons c cs ih =>
    have hc : c.toNat < 128 := h c (List.mem_cons_self c cs)
    have h1 : c ≠ 'é' := by
      intro hq
      rw [hq] at hc
      exact absurd hc (by decide)
    have h2 : c ≠ 'à' := by
      intro hq
      rw [hq] at hc
      exact absurd hc (by decide)
    have hrest : nfkdU cs = cs := ih (fun d hd => h d (List.mem_cons_of_mem c hd))
    simp only [nfkdU, List.map_cons, List.flatten_cons] at *
    rw [hrest]
    simp [nfkdChar, h1, h2]

/-! ## Character-level facts -/

theorem char_eq_iff_toNat {c d : Char} : c = d ↔ c.toNat = d.toNat := by
  constructor
  · intro h
    rw [h]
  · intro h
    rw [← Char.ofNat_toNat c, h, Char.ofNat_toNat]

theorem isLowerWordChar_pyLower {c : Char} (h : isWordChar c = true) :
    isLowerWordChar (pyLower c) = true := by
  simp only [isWordChar, decide_eq_true_eq] at h
  unfold pyLower isLowerWordChar
  split
  · rename_i h65
    rw [toNat_ofNat_of_lt (by omega)]
    simp only [decide_eq_true_eq]
    omega
  · rename_i h65
    simp only [decide_eq_true_eq]
    omega

theorem pyLower_fix {c : Char} (h : isLowerWordChar c = true) : pyLower c = c := by
  simp only [isLowerWordChar, decide_eq_true_eq] at h
  unfold pyLower
  rw [if_neg]
  omega

theorem isWordChar_of_lower {c : Char} (h : isLowerWordChar c = true) :
    isWordChar c = true := by
  simp only [isLowerWordChar, decide_eq_true_eq] at h
  simp only [isWordChar, decide_eq_true_eq]
  omega

theorem lower_toNat_lt {c : Char} (h : isLowerWordChar c = true) : c.toNat < 128 := by
  simp only [isLowerWordChar, decide_eq_true_eq] at h
  omega

theorem lower_ne_dash {c : Char} (h : isLowerWordChar c = true) : c ≠ '-' := by
  simp only [isLowerWordChar, decide_eq_true_eq] at h
  intro hcon
  have : c.toNat = 45 := by rw [hcon]; rfl
  omega

theorem lower_not_space {c : Char} (h : isLowerWordChar c = true) :
    isPySpace c = false := by
  simp only [isLowerWordChar, decide_eq_true_eq] at h
  simp only [isPySpace, decide_eq_false_iff_not]
  omega

theorem lower_not_upper {c : Char} (h : isLowerWordChar c = true) :
    isUpperAscii c = false := by
  simp only [isLowerWordChar, decide_eq_true_eq] at h
  simp only [isUpperAscii, decide_eq_false_iff_not]
  omega

theorem word_not_space {c : Char} (h : isWordChar c = true) : isPySpace c = false := by
  simp only [isWordChar, decide_eq_true_eq] at h
  simp only [isPySpace, decide_eq_false_iff_not]
  omega

/-! ## Structural lemmas about the pieces of `validate_name` -/

theorem map_id_of {f : Char → Char} :
    ∀ l : List Char, (∀ c ∈ l, f c = c) → l.map f = l := by
  intro l h
  induction l with
  | nil => rfl
  | cons c cs ih =>
    rw [List.map_cons, h c (List.mem_cons_self c cs),
      ih (fun d hd => h d (List.mem_cons_of_mem c hd))]

theorem map_map_id_of {f : Char → Char} :
    ∀ ts : List (List Char), (∀ t ∈ ts, ∀ c ∈ t, f c = c) →
      ts.map (List.map f) = ts := by
  intro ts h
  induction ts with
  | nil => rfl
  | cons t ts ih =>
    rw [List.map_cons, map_id_of t (h t (List.mem_cons_self t ts)),
      ih (fun s hs => h s (List.mem_cons_of_mem t hs))]

theorem splitWsAux_append_word {t : List Char} (ht : ∀ c ∈ t, isPySpace c = false) :
    ∀ (l acc : List Char), splitWsAux (t ++ l) acc = splitWsAux l (t.reverse ++ acc) := by
  induction t with
  | nil =>
    intro l acc
    simp
  | cons c t ih =>
    intro l acc
    have hc : isPySpace c = false := ht c (List.mem_cons_self _ _)
    have ht' : ∀ d ∈ t, isPySpace d = false := fun d hd => ht d (List.mem_cons_of_mem _ hd)
    rw [List.cons_append]
    show splitWsAux (c :: (t ++ l)) acc = _
    simp only [splitWsAux, hc, Bool.false_eq_true, if_false]
    rw [ih ht' l (c :: acc)]
    simp [List.append_assoc]

theorem joinSep_ne_nil {sep : Char} :
    ∀ {t : List Char} {ts : List (List Char)}, t ≠ [] → joinSep sep (t :: ts) ≠ [] := by
  intro t ts ht
  cases ts with
  | nil => exact ht
  | cons u ts' =>
    show t ++ sep :: joinSep sep (u :: ts') ≠ []
    simp

theorem splitWs_joinSep_space (ts : List (List Char))
    (h : ∀ t ∈ ts, t ≠ [] ∧ ∀ c ∈ t, isPySpace c = false) :
    splitWs (joinSep ' ' ts) = ts := by
  induction ts with
  | nil => rfl
  | cons t ts ih =>
    obtain ⟨hne, hns⟩ := h t (List.mem_cons_self _ _)
    have hrevne : (t.reverse).isEmpty = false := by
      rw [Bool.eq_false_iff]
      intro hcon
      exact hne (by simpa using List.isEmpty_iff.mp hcon)
    cases ts with
    | nil =>
      show splitWs (joinSep ' ' [t]) = [t]
      unfold splitWs
      have heq : joinSep ' ' [t] = t ++ [] := by simp [joinSep]
      rw [heq, splitWsAux_append_word hns]
      simp only [splitWsAux, List.append_nil, hrevne, Bool.false_eq_true, if_false]
      rw [List.reverse_reverse]
    | cons u ts' =>
      have hrest : ∀ s ∈ u :: ts', s ≠ [] ∧ ∀ c ∈ s, isPySpace c = false :=
        fun s hs => h s (List.mem_cons_of_mem _ hs)
      show splitWs (joinSep ' ' (t :: u :: ts')) = t :: u :: ts'
      have heq : joinSep ' ' (t :: u :: ts') = t ++ ' ' :: joinSep ' ' (u :: ts') := rfl
      unfold splitWs
      rw [heq, splitWsAux_append_word hns]
      have hsp : isPySpace ' ' = true := by decide
      simp only [splitWsAux, hsp, if_true, List.append_nil, hrevne, Bool.false_eq_true,
        if_false]
      rw [List.reverse_reverse]
      exact congrArg (t :: ·) (ih hrest)

theorem splitWsAux_tokens_ne_nil :
    ∀ (l acc : List Char), ∀ w ∈ splitWsAux l acc, w ≠ [] := by
  intro l
  induction l with
  | nil =>
    intro acc w hw
    simp only [splitWsAux] at hw
    split at hw
    · simp at hw
    · rename_i hacc
      rw [List.mem_singleton] at hw
      subst hw
      rw [Ne, List.reverse_eq_nil_iff]
      intro hcon
      exact hacc (by simp [hcon])
  | cons c cs ih =>
    intro acc w hw
    simp only [splitWsAux] at hw
    split at hw
    · split at hw
      · exact ih [] w hw
      · rename_i hacc
        rcases List.mem_cons.mp hw with hh | hh
        · subst hh
          rw [Ne, List.reverse_eq_nil_iff]
          intro hcon
          exact hacc (by simp [hcon])
        · exact ih [] w hh
    · exact ih (c :: acc) w hw

theorem splitWsAux_flatten :
    ∀ (l acc : List Char),
      (splitWsAux l acc).flatten = acc.reverse ++ l.filter (fun c => !isPySpace c) := by
  intro l
  induction l with
  | nil =>
    intro acc
    simp only [splitWsAux]
    split
    · rename_i hacc
      rw [List.isEmpty_iff.mp hacc]
      rfl
    · simp
  | cons c cs ih =>
    intro acc
    simp only [splitWsAux]
    by_cases hsp : isPySpace c
    · rw [if_pos hsp]
      split
      · rename_i hacc
        rw [ih [], List.isEmpty_iff.mp hacc]
        simp [List.filter_cons, hsp]
      · simp only [List.flatten_cons]
        rw [ih []]
        simp [List.filter_cons, hsp]
    · rw [if_neg hsp]
      rw [ih (c :: acc)]
      simp [List.filter_cons, hsp, List.append_assoc]

theorem mem_of_mem_splitWs {l w : List Char} {c : Char}
    (hw : w ∈ splitWs l) (hc : c ∈ w) :
    c ∈ l ∧ isPySpace c = false := by
  have : c ∈ (splitWs l).flatten := List.mem_flatten_of_mem hw hc
  rw [splitWs, splitWsAux_flatten] at this
  simp only [List.reverse_nil, List.nil_append, List.mem_filter,
    Bool.not_eq_true'] at this
  exact this

theorem joinSep_map (f : Char → Char) (sep : Char) :
    ∀ ts : List (List Char),
      (joinSep sep ts).map f = joinSep (f sep) (ts.map (List.map f)) := by
  intro ts
  induction ts with
  | nil => rfl
  | cons t ts ih =>
    cases ts with
    | nil => rfl
    | cons u ts' =>
      show (t ++ sep :: joinSep sep (u :: ts')).map f = _
      rw [List.map_append, List.map_cons, ih]
      rfl

theorem mem_joinSep {c sep : Char} :
    ∀ {ts : List (List Char)}, c ∈ joinSep sep ts → c = sep ∨ ∃ t ∈ ts, c ∈ t := by
  intro ts
  induction ts with
  | nil =>
    intro h
    simp [joinSep] at h
  | cons t ts ih =>
    cases ts with
    | nil =>
      intro h
      exact Or.inr ⟨t, List.mem_cons_self _ _, h⟩
    | cons u ts' =>
      intro h
      replace h : c ∈ t ++ sep :: joinSep sep (u :: ts') := h
      rw [List.mem_append, List.mem_cons] at h
      rcases h with h | h | h
      · exact Or.inr ⟨t, List.mem_cons_self _ _, h⟩
      · exact Or.inl h
      · rcases ih h with h' | ⟨s, hs, hcs⟩
        · exact Or.inl h'
        · exact Or.inr ⟨s, List.mem_cons_of_mem _ hs, hcs⟩

theorem head?_joinSep {sep : Char} :
    ∀ {ts : List (List Char)}, (∀ t ∈ ts, t ≠ []) →
      ∀ {h : Char}, (joinSep sep ts).head? = some h → ∃ t ∈ ts, h ∈ t := by
  intro ts hts h hh
  cases ts with
  | nil => simp [joinSep] at hh
  | cons t ts' =>
    have htne : t ≠ [] := hts t (List.mem_cons_self _ _)
    have hfirst : (joinSep sep (t :: ts')).head? = t.head? := by
      cases ts' with
      | nil => rfl
      | cons u ts'' => exact List.head?_append_of_ne_nil t htne
    rw [hfirst] at hh
    exact ⟨t, List.mem_cons_self _ _, List.mem_of_mem_head? hh⟩

theorem getLast?_joinSep {sep : Char} :
    ∀ {ts : List (List Char)}, (∀ t ∈ ts, t ≠ []) →
      ∀ {h : Char}, (joinSep sep ts).getLast? = some h → ∃ t ∈ ts, h ∈ t := by
  intro ts
  induction ts with
  | nil =>
    intro _ h hh
    simp [joinSep] at hh
  | cons t ts ih =>
    intro hts h hh
    cases ts with
    | nil =>
      exact ⟨t, List.mem_cons_self _ _, List.mem_of_mem_getLast? hh⟩
    | cons u ts' =>
      have hune : u ≠ [] := hts u (List.mem_cons_of_mem _ (List.mem_cons_self _ _))
      have hJ : joinSep sep (u :: ts') ≠ [] := joinSep_ne_nil hune
      replace hh : (t ++ sep :: joinSep sep (u :: ts')).getLast? = some h := hh
      rw [List.getLast?_append_of_ne_nil t (by simp)] at hh
      obtain ⟨j, J', hJ'⟩ : ∃ j J', joinSep sep (u :: ts') = j :: J' :=
        List.exists_cons_of_ne_nil hJ
      rw [hJ', List.getLast?_cons_cons] at hh
      rw [← hJ'] at hh
      obtain ⟨s, hs, hcs⟩ :=
        ih (fun s hs => hts s (List.mem_cons_of_mem _ hs)) hh
      exact ⟨s, List.mem_cons_of_mem _ hs, hcs⟩

theorem chain'_of_forall_ne {sep : Char} :
    ∀ l : List Char, (∀ c ∈ l, c ≠ sep) →
      List.Chain' (fun a b => ¬(a = sep ∧ b = sep)) l := by
  intro l h
  induction l with
  | nil => simp
  | cons a l ih =>
    rw [List.chain'_cons']
    refine ⟨fun b _ hab => absurd hab.1 (h a (List.mem_cons_self _ _)), ?_⟩
    exact ih (fun c hc => h c (List.mem_cons_of_mem _ hc))

theorem chain'_joinSep {sep : Char} :
    ∀ {ts : List (List Char)}, (∀ t ∈ ts, t ≠ [] ∧ ∀ c ∈ t, c ≠ sep) →
      List.Chain' (fun a b => ¬(a = sep ∧ b = sep)) (joinSep sep ts) := by
  intro ts
  induction ts with
  | nil =>
    intro _
    simp [joinSep]
  | cons t ts ih =>
    intro hts
    obtain ⟨htne, htsep⟩ := hts t (List.mem_cons_self _ _)
    cases ts with
    | nil => exact chain'_of_forall_ne t htsep
    | cons u ts' =>
      have hrest : ∀ s ∈ u :: ts', s ≠ [] ∧ ∀ c ∈ s, c ≠ sep :=
        fun s hs => hts s (List.mem_cons_of_mem _ hs)
      show List.Chain' _ (t ++ sep :: joinSep sep (u :: ts'))
      rw [List.chain'_append]
      refine ⟨chain'_of_forall_ne t htsep, ?_, ?_⟩
      · rw [List.chain'_cons']
        constructor
        · intro b hb hab
          rw [Option.mem_def] at hb
          obtain ⟨s, hs, hbs⟩ := head?_joinSep (fun s hs => (hrest s hs).1) hb
          exact absurd hab.2 ((hrest s hs).2 b hbs)
        · exact ih hrest
      · intro x hx y hy hxy
        exact absurd hxy.1 (htsep x (List.mem_of_mem_getLast? hx))

/-! ## Characterization of `validate_name`'s output -/

/-- The hyphen-separated pieces of `validate_name`'s output: the
whitespace-split words of the cleaned string, lowercased. -/
def cleanTokens (nfkd : List Char → List Char) (x : List Char) : List (List Char) :=
  (splitWs (subNonWord (asciiIgnore (nfkd x)))).map (List.map pyLower)

theorem validate_name_eq_joinSep (nfkd : List Char → List Char) (x : List Char) :
    validate_name nfkd x = joinSep '-' (cleanTokens nfkd x) := by
  unfold validate_name cleanTokens
  rw [joinSep_map]
  rfl

theorem cleanTokens_spec (nfkd : List Char → List Char) (x : List Char) :
    ∀ t ∈ cleanTokens nfkd x, t ≠ [] ∧ ∀ c ∈ t, isLowerWordChar c = true := by
  intro t ht
  unfold cleanTokens at ht
  rw [List.mem_map] at ht
  obtain ⟨w, hw, rfl⟩ := ht
  constructor
  · rw [Ne, List.map_eq_nil_iff]
    exact splitWsAux_tokens_ne_nil _ [] w hw
  · intro c hc
    rw [List.mem_map] at hc
    obtain ⟨d, hd, rfl⟩ := hc
    obtain ⟨hmem, hnsp⟩ := mem_of_mem_splitWs hw hd
    have hword : isWordChar d = true := by
      unfold subNonWord at hmem
      rw [List.mem_map] at hmem
      obtain ⟨e, _, he⟩ := hmem
      by_cases hwe : isWordChar e = true
      · rw [← he]
        simp [hwe]
      · exfalso
        simp only [hwe, Bool.false_eq_true, if_false] at he
        rw [← he] at hnsp
        exact absurd hnsp (by decide)
    exact isLowerWordChar_pyLower hword

theorem validate_name_chars (nfkd : List Char → List Char) (x : List Char) :
    ∀ c ∈ validate_name nfkd x, isLowerWordChar c = true ∨ c = '-' := by
  intro c hc
  rw [validate_name_eq_joinSep] at hc
  rcases mem_joinSep hc with h | ⟨t, ht, hct⟩
  · exact Or.inr h
  · exact Or.inl ((cleanTokens_spec nfkd x t ht).2 c hct)

/-- Applying the full `validate_name` chain to an already-validated string
gives it back unchanged, provided `nfkd` is the identity on ASCII strings
(as `unicodedata.normalize("NFKD", ·)` is). -/
theorem validate_name_idem_aux (nfkd : List Char → List Char)
    (hnfkd : ∀ l : List Char, (∀ c ∈ l, c.toNat < 128) → nfkd l = l)
    (x : List Char) :
    validate_name nfkd (validate_name nfkd x) = validate_name nfkd x := by
  rw [validate_name_eq_joinSep nfkd x]
  have hspec := cleanTokens_spec nfkd x
  set ts := cleanTokens nfkd x with hts
  have hchars : ∀ c ∈ joinSep '-' ts, isLowerWordChar c = true ∨ c = '-' := by
    intro c hc
    rcases mem_joinSep hc with h | ⟨t, ht, hct⟩
    · exact Or.inr h
    · exact Or.inl ((hspec t ht).2 c hct)
  have hascii : ∀ c ∈ joinSep '-' ts, c.toNat < 128 := by
    intro c hc
    rcases hchars c hc with h | h
    · exact lower_toNat_lt h
    · rw [h]
      decide
  show validate_name nfkd (joinSep '-' ts) = joinSep '-' ts
  unfold validate_name
  rw [hnfkd _ hascii]
  have h2 : asciiIgnore (joinSep '-' ts) = joinSep '-' ts := by
    unfold asciiIgnore
    rw [List.filter_eq_self]
    intro c hc
    simpa using hascii c hc
  rw [h2]
  show List.map pyLower (joinSep '-' (splitWs (subNonWord (joinSep '-' ts)))) =
    joinSep '-' ts
  have h3 : subNonWord (joinSep '-' ts) = joinSep ' ' ts := by
    unfold subNonWord
    rw [joinSep_map]
    have hdash : (if isWordChar '-' then '-' else ' ') = ' ' := by decide
    rw [hdash]
    have hmap : ts.map (List.map fun c => if isWordChar c then c else ' ') = ts := by
      apply map_map_id_of
      intro t ht c hc
      rw [if_pos (isWordChar_of_lower ((hspec t ht).2 c hc))]
    rw [hmap]
  rw [h3]
  have h4 : splitWs (joinSep ' ' ts) = ts := by
    apply splitWs_joinSep_space
    intro t ht
    exact ⟨(hspec t ht).1, fun c hc => lower_not_space ((hspec t ht).2 c hc)⟩
  rw [h4]
  rw [joinSep_map]
  have hdash2 : pyLower '-' = '-' := by decide
  rw [hdash2]
  have hmap2 : ts.map (List.map pyLower) = ts := by
    apply map_map_id_of
    intro t ht c hc
    exact pyLower_fix ((hspec t ht).2 c hc)
  rw [hmap2]

/-! ## Underscore preservation -/

theorem count_map_eq {f : Char → Char} {b : Char} (h : ∀ a, f a = b ↔ a = b) :
    ∀ l : List Char, List.count b (l.map f) = List.count b l := by
  intro l
  induction l with
  | nil => rfl
  | cons c cs ih =>
    rw [List.map_cons, List.count_cons, List.count_cons, ih]
    congr 1
    by_cases hc : c = b
    · have hfc : f c = b := (h c).mpr hc
      rw [hfc, hc]
    · have hf : f c ≠ b := fun hfc => hc ((h c).mp hfc)
      simp [hc, hf]

theorem pyLower_eq_underscore (a : Char) : pyLower a = '_' ↔ a = '_' := by
  constructor
  · intro h
    unfold pyLower at h
    split at h
    · rename_i hr
      exfalso
      rw [char_eq_iff_toNat] at h
      rw [toNat_ofNat_of_lt (by omega)] at h
      rw [show ('_').toNat = 95 from rfl] at h
      omega
    · exact h
  · intro h
    rw [h]
    decide

theorem subChar_eq_underscore (a : Char) :
    (if isWordChar a then a else ' ') = '_' ↔ a = '_' := by
  by_cases hw : isWordChar a = true
  · rw [if_pos hw]
  · rw [if_neg hw]
    constructor
    · intro h
      exact absurd h (by decide)
    · intro h
      rw [h] at hw
      exact absurd (by decide) hw

theorem count_joinSep_flatten {c sep : Char} (h : c ≠ sep) :
    ∀ ts : List (List Char), List.count c (joinSep sep ts) = List.count c ts.flatten := by
  intro ts
  induction ts with
  | nil => rfl
  | cons t ts ih =>
    cases ts with
    | nil => simp [joinSep]
    | cons u ts' =>
      show List.count c (t ++ sep :: joinSep sep (u :: ts')) = _
      rw [List.count_append, List.count_cons, ih, List.flatten_cons, List.count_append]
      have hb : (sep == c) = false := by
        simp only [beq_eq_false_iff_ne, ne_eq]
        exact fun hsc => h hsc.symm
      rw [hb]
      simp

theorem count_filter_underscore (l : List Char) :
    List.count '_' (l.filter (fun c => !isPySpace c)) = List.count '_' l := by
  induction l with
  | nil => rfl
  | cons c cs ih =>
    rw [List.filter_cons]
    by_cases hc : c = '_'
    · subst hc
      rw [if_pos (by decide), List.count_cons, List.count_cons, ih]
    · by_cases hsp : isPySpace c = true
      · rw [if_neg (by simp [hsp]), List.count_cons, ih]
        have : (c == '_') = false := by simp [hc]
        rw [this]
        simp
      · rw [if_pos (by simp [Bool.eq_false_iff.mpr hsp]), List.count_cons,
          List.count_cons, ih]

theorem count_underscore_validate (nfkd : List Char → List Char) (x : List Char) :
    List.count '_' (validate_name nfkd x) =
      List.count '_' (asciiIgnore (nfkd x)) := by
  unfold validate_name
  show List.count '_' ((joinSep '-' (splitWs (subNonWord (asciiIgnore (nfkd x))))).map
    pyLower) = _
  rw [count_map_eq pyLower_eq_underscore,
    count_joinSep_flatten (by decide),
    show splitWs (subNonWord (asciiIgnore (nfkd x))) =
      splitWsAux (subNonWord (asciiIgnore (nfkd x))) [] from rfl,
    splitWsAux_flatten, List.reverse_nil, List.nil_append,
    count_filter_underscore]
  unfold subNonWord
  rw [count_map_eq subChar_eq_underscore]

/-! ## Maximal word runs -/

/-- Helper for `wordRuns`; `acc` holds the current run reversed. -/
def wordRunsAux : List Char → List Char → List (List Char)
  | [], acc => if acc.isEmpty then [] else [acc.reverse]
  | c :: cs, acc =>
    if isWordChar c then wordRunsAux cs (c :: acc)
    else if acc.isEmpty then wordRunsAux cs [] else acc.reverse :: wordRunsAux cs []

/-- The maximal runs of `[a-zA-Z0-9_]` characters of a string, in order: a
specification-level description of the pieces kept by "replace non-word
characters by spaces, then split" — each maximal run of non-word characters
strictly between two runs ends up as a single separator, and the runs at
either boundary are dropped. -/
def wordRuns (l : List Char) : List (List Char) :=
  wordRunsAux l []

theorem splitWsAux_subNonWord (l : List Char) :
    ∀ acc, splitWsAux (subNonWord l) acc = wordRunsAux l acc := by
  induction l with
  | nil =>
    intro acc
    rfl
  | cons c cs ih =>
    intro acc
    show splitWsAux ((if isWordChar c then c else ' ') :: subNonWord cs) acc = _
    by_cases hw : isWordChar c = true
    · rw [if_pos hw]
      simp only [splitWsAux, word_not_space hw, Bool.false_eq_true, if_false,
        wordRunsAux, hw, if_true]
      exact ih (c :: acc)
    · rw [if_neg hw]
      have hsp : isPySpace ' ' = true := by decide
      simp only [splitWsAux, hsp, if_true, wordRunsAux, hw, Bool.false_eq_true,
        if_false]
      split
      · exact ih []
      · rw [ih []]

theorem validate_name_runs (nfkd : List Char → List Char) (x : List Char) :
    validate_name nfkd x =
      joinSep '-' ((wordRuns (asciiIgnore (nfkd x))).map (List.map pyLower)) := by
  rw [validate_name_eq_joinSep]
  unfold cleanTokens
  rw [show splitWs (subNonWord (asciiIgnore (nfkd x))) =
    wordRuns (asciiIgnore (nfkd x)) from splitWsAux_subNonWord _ []]

/-! ## Claim C1 -/

/-- C1: for every input string `x` (and every NFKD table that fixes ASCII
strings, as `unicodedata`'s does), name normalization is idempotent:
`validate_name (validate_name x) = validate_name x`; and in particular
`validate_name " déjà  vu! "` returns `"deja-vu"`. -/
theorem validate_name_idempotent (nfkd : List Char → List Char)
    (hnfkd : ∀ l : List Char, (∀ c ∈ l, c.toNat < 128) → nfkd l = l)
    (x : List Char) :
    validate_name nfkd (validate_name nfkd x) = validate_name nfkd x ∧
    validate_name nfkdU ((" déjà  vu! ").toList) = ("deja-vu").toList :=
  ⟨validate_name_idem_aux nfkd hnfkd x, by decide⟩

theorem validate_name_idempotent_witness :
    validate_name nfkdU (validate_name nfkdU ((" déjà  vu! ").toList)) =
      validate_name nfkdU ((" déjà  vu! ").toList) ∧
    validate_name nfkdU ((" déjà  vu! ").toList) = ("deja-vu").toList :=
  validate_name_idempotent nfkdU nfkdU_ascii_fix ((" déjà  vu! ").toList)

/-! ## Claim C2 -/

/-- C2 (counterexample): the slug is NOT "every maximal run of
non-alphanumeric characters collapsed into a single hyphen": underscores
are `\w` characters, so `validate_name "a_b"` keeps the underscore — its
output contains `'_'`, which is neither alphanumeric nor a hyphen. -/
theorem validate_name_keeps_underscore :
    validate_name nfkdU (("a_b").toList) = ("a_b").toList ∧
    ('_') ∈ validate_name nfkdU (("a_b").toList) ∧
    isAlphanum '_' = false ∧ ('_') ≠ '-' := by
  refine ⟨by decide, by decide, by decide, by decide⟩

/-- C2 (amended): for every input string, the result of `validate_name` is
entirely lowercase, diacritics are replaced by NFKD decomposition followed
by dropping non-ASCII code points, and the result is exactly the lowercased
maximal runs of word characters `[A-Za-z0-9_]` joined by single hyphens —
interior runs of non-word characters (not of all non-alphanumerics:
underscores are kept verbatim) collapse to one hyphen and leading/trailing
runs are dropped. -/
theorem validate_name_slug_shape (nfkd : List Char → List Char) (x : List Char) :
    validate_name nfkd x =
      joinSep '-' ((wordRuns (asciiIgnore (nfkd x))).map (List.map pyLower)) ∧
    (∀ c ∈ validate_name nfkd x, isUpperAscii c = false) ∧
    (∀ c ∈ validate_name nfkd x, isLowerWordChar c = true ∨ c = '-') ∧
    validate_name nfkdU (("déjà Vu").toList) = ("deja-vu").toList := by
  refine ⟨validate_name_runs nfkd x, ?_, validate_name_chars nfkd x, by decide⟩
  intro c hc
  rcases validate_name_chars nfkd x c hc with h | h
  · exact lower_not_upper h
  · rw [h]
    decide

theorem validate_name_slug_shape_witness :
    isUpperAscii 'v' = false ∧ (isLowerWordChar 'v' = true ∨ 'v' = '-') := by
  have h := validate_name_slug_shape nfkdU (("déjà Vu").toList)
  exact ⟨h.2.1 'v' (by decide), h.2.2.1 'v' (by decide)⟩

/-! ## Claim C10 -/

/-- C10: for every input string, `validate_name` returns a string over
`[a-z0-9_-]` only, never beginning or ending with a hyphen, never holding
two consecutive hyphens; underscores are preserved verbatim (their count
equals their count in the ASCII-filtered NFKD input) rather than turned
into hyphens. -/
theorem validate_name_output_invariant (nfkd : List Char → List Char)
    (x : List Char) :
    (∀ c ∈ validate_name nfkd x, isLowerWordChar c = true ∨ c = '-') ∧
    (∀ h, (validate_name nfkd x).head? = some h → h ≠ '-') ∧
    (∀ h, (validate_name nfkd x).getLast? = some h → h ≠ '-') ∧
    List.Chain' (fun a b => ¬(a = '-' ∧ b = '-')) (validate_name nfkd x) ∧
    List.count '_' (validate_name nfkd x) = List.count '_' (asciiIgnore (nfkd x)) ∧
    validate_name nfkdU (("snake_case one").toList) = ("snake_case-one").toList := by
  have hspec := cleanTokens_spec nfkd x
  have hne : ∀ t ∈ cleanTokens nfkd x, t ≠ [] := fun t ht => (hspec t ht).1
  refine ⟨validate_name_chars nfkd x, ?_, ?_, ?_, count_underscore_validate nfkd x,
    by decide⟩
  · intro h hh
    rw [validate_name_eq_joinSep] at hh
    obtain ⟨t, ht, hmem⟩ := head?_joinSep hne hh
    exact lower_ne_dash ((hspec t ht).2 h hmem)
  · intro h hh
    rw [validate_name_eq_joinSep] at hh
    obtain ⟨t, ht, hmem⟩ := getLast?_joinSep hne hh
    exact lower_ne_dash ((hspec t ht).2 h hmem)
  · rw [validate_name_eq_joinSep]
    apply chain'_joinSep
    intro t ht
    exact ⟨(hspec t ht).1, fun c hc => lower_ne_dash ((hspec t ht).2 c hc)⟩

theorem validate_name_output_invariant_witness :
    (isLowerWordChar 'a' = true ∨ 'a' = '-') ∧ ('a') ≠ '-' ∧ ('b') ≠ '-' := by
  have h := validate_name_output_invariant nfkdU (("?a b?").toList)
  exact ⟨h.1 'a' (by decide), h.2.1 'a' (by decide), h.2.2.1 'b' (by decide)⟩

/-! ## Input collection (helpers.py) -/

/-- Outcome of an input-collection routine: the process terminated via
`exit()`, a value was returned, or the interactive loop is still blocked
waiting for input (stream of answers exhausted). -/
inductive InputOutcome where
  | exited : InputOutcome
  | ok : List Char → InputOutcome
  | awaiting : InputOutcome
deriving DecidableEq

/-- The `while True` loop of `helpers.get_repo_name` when no truthy argument
is given: read a candidate, validate it, retry while the validated name is
empty. `inputs` is the stream of interactive answers. -/
def get_repo_name_loop (nfkd : List Char → List Char) :
    List (List Char) → InputOutcome
  | [] => .awaiting
  | i :: rest =>
    let repo_name := validate_name nfkd i
    if repo_name.isEmpty then get_repo_name_loop nfkd rest else .ok repo_name

/-- Embedding of `helpers.get_repo_name` (lines 11–40): with a truthy `name` argument,
the validated name is returned unless it is empty, in which case the error
is reported and the process exits; a falsy argument (Python `None` or `""`,
both modelled by `[]`) enters the interactive loop. -/
def get_repo_name (nfkd : List Char → List Char) (name : List Char)
    (inputs : List (List Char)) : InputOutcome :=
  if name.isEmpty = false then
    let repo_name := validate_name nfkd name
    if repo_name.isEmpty then .exited else .ok repo_name
  else get_repo_name_loop nfkd inputs

theorem get_repo_name_loop_ne_empty (nfkd : List Char → List Char) :
    ∀ inputs : List (List Char), get_repo_name_loop nfkd inputs ≠ .ok [] := by
  intro inputs
  induction inputs with
  | nil => simp [get_repo_name_loop]
  | cons i rest ih =>
    show (if (validate_name nfkd i).isEmpty then get_repo_name_loop nfkd rest
      else .ok (validate_name nfkd i)) ≠ InputOutcome.ok []
    split
    · exact ih
    · rename_i hne
      intro hcon
      rw [InputOutcome.ok.injEq] at hcon
      rw [hcon] at hne
      exact hne rfl

/-! ## Claim C3 -/

/-- C3: `validate_name ""` and `validate_name "   "` both return the empty
string; whenever the normalized repository name is empty, input collection
rejects it: with a (truthy) name argument normalizing to empty,
`get_repo_name` terminates the run instead of returning, and no path of
`get_repo_name` ever returns an empty name. -/
theorem empty_name_rejected :
    validate_name nfkdU [] = [] ∧
    validate_name nfkdU (("   ").toList) = [] ∧
    (∀ (nfkd : List Char → List Char) (name : List Char)
      (inputs : List (List Char)), name ≠ [] → validate_name nfkd name = [] →
        get_repo_name nfkd name inputs = .exited) ∧
    (∀ (nfkd : List Char → List Char) (name : List Char)
      (inputs : List (List Char)), get_repo_name nfkd name inputs ≠ .ok []) := by
  refine ⟨by decide, by decide, ?_, ?_⟩
  · intro nfkd name inputs hne hval
    unfold get_repo_name
    rw [if_pos (by simp [List.isEmpty_iff, hne])]
    show (if (validate_name nfkd name).isEmpty then InputOutcome.exited
      else .ok (validate_name nfkd name)) = .exited
    rw [if_pos (by simp [hval])]
  · intro nfkd name inputs
    unfold get_repo_name
    split
    · show (if (validate_name nfkd name).isEmpty then InputOutcome.exited
        else .ok (validate_name nfkd name)) ≠ .ok []
      split
      · simp
      · rename_i hne
        intro hcon
        rw [InputOutcome.ok.injEq] at hcon
        rw [hcon] at hne
        exact hne rfl
    · exact get_repo_name_loop_ne_empty nfkd inputs

theorem empty_name_rejected_witness :
    get_repo_name nfkdU ((" !! ").toList) [] = InputOutcome.exited :=
  empty_name_rejected.2.2.1 nfkdU ((" !! ").toList) [] (by decide) (by decide)

/-! ## License collection (helpers.py lines 60–84) -/

/-- The `while True` loop of `helpers.get_license` with no truthy argument:
prompt until the answer belongs to `consts.LICENSES`. -/
def get_license_loop (licenses : List (List Char)) :
    List (List Char) → InputOutcome
  | [] => .awaiting
  | i :: rest => if i ∈ licenses then .ok i else get_license_loop licenses rest

/-- Embedding of `helpers.get_license`: a truthy `licence` argument is returned as-is —
without checking it against `consts.LICENSES`; only the interactive path
validates catalog membership. -/
def get_license (licenses : List (List Char)) (licence : List Char)
    (inputs : List (List Char)) : InputOutcome :=
  if licence.isEmpty = false then .ok licence
  else get_license_loop licenses inputs

theorem get_license_loop_mem (licenses : List (List Char)) :
    ∀ (inputs : List (List Char)) (r : List Char),
      get_license_loop licenses inputs = .ok r → r ∈ licenses := by
  intro inputs
  induction inputs with
  | nil =>
    intro r h
    simp [get_license_loop] at h
  | cons i rest ih =>
    intro r h
    unfold get_license_loop at h
    split at h
    · rename_i hmem
      rw [InputOutcome.ok.injEq] at h
      rw [← h]
      exact hmem
    · exact ih r h

/-! ## Claim C9 -/

/-- C9 (counterexample): `get_license` with catalog `["MIT"]` and the
argument `"FOO"` returns `"FOO"`, which is outside the catalog — the
argument path of license collection performs no validation. -/
theorem get_license_arg_unchecked :
    get_license [("MIT").toList] (("FOO").toList) [] = .ok (("FOO").toList) ∧
    (("FOO").toList) ∉ [("MIT").toList] := by
  refine ⟨by decide, by decide⟩

/-- C9 (amended): the interactive path of `get_license` only ever returns a
catalog member, but a truthy `licence` argument is returned verbatim without
validation (in `pyghusk.py` the CLI argument is instead pre-validated by
`argparse`'s `choices=LICENSES` before reaching this logic). -/
theorem get_license_spec (licenses : List (List Char))
    (inputs : List (List Char)) :
    (∀ r, get_license licenses [] inputs = .ok r → r ∈ licenses) ∧
    (∀ licence : List Char, licence ≠ [] →
      get_license licenses licence inputs = .ok licence) := by
  constructor
  · intro r hr
    unfold get_license at hr
    rw [if_neg (by simp)] at hr
    exact get_license_loop_mem licenses inputs r hr
  · intro licence hle
    unfold get_license
    rw [if_pos (by simp [List.isEmpty_iff, hle])]

theorem get_license_spec_witness :
    (("MIT").toList) ∈ [("MIT").toList] ∧
    get_license [("MIT").toList] (("GPL").toList) [] = .ok (("GPL").toList) := by
  have h := get_license_spec [("MIT").toList] [("FOO").toList, ("MIT").toList]
  have h2 := get_license_spec [("MIT").toList] ([] : List (List Char))
  exact ⟨h.1 (("MIT").toList) (by decide), h2.2 (("GPL").toList) (by decide)⟩

/-! ## HTTP gateway (actions.py) -/

/-- The fields of a `requests` response used by the classification code. -/
structure HttpResponse where
  status_code : Nat
  text : List Char
deriving DecidableEq

/-- Outcome of an API step: success (carrying the value extracted from the
body, if any), graceful failure (server message logged, then `exit()`), or
an uncaught exception escaping the step. -/
inductive ApiOutcome where
  | success : List Char → ApiOutcome
  | exitFailure : List Char → ApiOutcome
  | uncaught : ApiOutcome
deriving DecidableEq

/-- Models `json.loads(body)[key]` (Python standard library) for a
string-valued `key` of a flat object: `none` when the body does not parse
as such an object containing `key` — the case in which the source raises
`json.JSONDecodeError` / `KeyError`. The concrete parser accepts exactly
bodies of the shape `\x7b"<key>": "<value>"\x7d`, the shape the spec
ascribes to server error bodies. -/
def jsonField (body key : List Char) : Option (List Char) :=
  let pre := '\x7b' :: '\"' :: (key ++ ['\"', ':', ' ', '\"'])
  if body.take pre.length = pre then
    let rest := body.drop pre.length
    let v := rest.takeWhile (fun c => c ≠ '\"')
    if rest.drop v.length = ['\"', '\x7d'] then some v else none
  else none

/-- Embedding of `actions.create_remote_repository` (lines 136–173), response handling:
a 2xx status reports success and extracts `json.loads(text)["full_name"]`;
any other status prints the error and extracts
`json.loads(text)["message"]` — unprotected, so a body that fails to parse
raises an uncaught exception — then exits. -/
def create_remote_repository (jf : List Char → List Char → Option (List Char))
    (r : HttpResponse) : ApiOutcome :=
  if 200 ≤ r.status_code ∧ r.status_code < 300 then
    match jf r.text (("full_name").toList) with
    | some n => .success n
    | none => .uncaught
  else
    match jf r.text (("message").toList) with
    | some m => .exitFailure m
    | none => .uncaught

/-- Embedding of `actions.enable_pages` (lines 49–85), response handling: same
classification; on success nothing is extracted from the body. -/
def enable_pages (jf : List Char → List Char → Option (List Char))
    (r : HttpResponse) : ApiOutcome :=
  if 200 ≤ r.status_code ∧ r.status_code < 300 then .success []
  else
    match jf r.text (("message").toList) with
    | some m => .exitFailure m
    | none => .uncaught

/-! ## Claim C4 -/

/-- C4 (counterexample): a failing response whose body is not JSON —
status 500, body `"oops"` — makes the failure handler of
`create_remote_repository` raise an uncaught exception (`json.loads` fails
before the raw body is ever reported), not report the raw body as the claim
states. -/
theorem classify_crashes_on_bad_body :
    create_remote_repository jsonField ⟨500, ("oops").toList⟩ = .uncaught ∧
    ApiOutcome.uncaught ≠ .exitFailure (("oops").toList) ∧
    jsonField (("oops").toList) (("message").toList) = none := by
  refine ⟨by decide, by decide, by decide⟩

/-- C4 (amended): every status in `[200, 300)` is classified as success and
any other status as failure; on failure the gateway extracts the `message`
field from a JSON body shaped `\x7b"message": "..."\x7d` and terminates the
run — but when that parsing fails, the step raises an uncaught exception
instead of reporting the raw body. -/
theorem classify_response_spec (jf : List Char → List Char → Option (List Char))
    (r : HttpResponse) :
    (200 ≤ r.status_code → r.status_code < 300 →
      (∀ n, jf r.text (("full_name").toList) = some n →
        create_remote_repository jf r = .success n) ∧
      enable_pages jf r = .success []) ∧
    (r.status_code < 200 ∨ 300 ≤ r.status_code →
      (∀ m, jf r.text (("message").toList) = some m →
        create_remote_repository jf r = .exitFailure m ∧
        enable_pages jf r = .exitFailure m) ∧
      (jf r.text (("message").toList) = none →
        create_remote_repository jf r = .uncaught ∧
        enable_pages jf r = .uncaught)) := by
  constructor
  · intro h1 h2
    constructor
    · intro n hn
      unfold create_remote_repository
      rw [if_pos ⟨h1, h2⟩, hn]
    · unfold enable_pages
      rw [if_pos ⟨h1, h2⟩]
  · intro hfail
    have hneg : ¬(200 ≤ r.status_code ∧ r.status_code < 300) := by omega
    constructor
    · intro m hm
      unfold create_remote_repository enable_pages
      rw [if_neg hneg, if_neg hneg, hm]
      exact ⟨rfl, rfl⟩
    · intro hnone
      unfold create_remote_repository enable_pages
      rw [if_neg hneg, if_neg hneg, hnone]
      exact ⟨rfl, rfl⟩

theorem classify_response_spec_witness :
    create_remote_repository jsonField
      ⟨201, ("\x7b\"full_name\": \"user/repo\"\x7d").toList⟩ =
        .success (("user/repo").toList) ∧
    create_remote_repository jsonField
      ⟨404, ("\x7b\"message\": \"Not Found\"\x7d").toList⟩ =
        .exitFailure (("Not Found").toList) ∧
    enable_pages jsonField ⟨503, ("nope").toList⟩ = .uncaught := by
  have h1 := classify_response_spec jsonField
    ⟨201, ("\x7b\"full_name\": \"user/repo\"\x7d").toList⟩
  have h2 := classify_response_spec jsonField
    ⟨404, ("\x7b\"message\": \"Not Found\"\x7d").toList⟩
  have h3 := classify_response_spec jsonField ⟨503, ("nope").toList⟩
  refine ⟨(h1.1 (by decide) (by decide)).1 _ (by decide), ?_, ?_⟩
  · exact ((h2.2 (by decide)).1 _ (by decide)).1
  · exact ((h3.2 (by decide)).2 (by decide)).2

/-! ## Scaffold writer (actions.py) -/

/-- Python `dict` assignment `d[k] = v` on a dict modelled as an ordered
association list: an existing key keeps its position and receives the new
value; a new key is appended at the end. -/
def dictSet (k v : List Char) (d : List (List Char × List Char)) :
    List (List Char × List Char) :=
  if d.any (fun p => decide (p.1 = k)) then
    d.map (fun p => if p.1 = k then (p.1, v) else p)
  else d ++ [(k, v)]

theorem mem_dictSet (k v : List Char) (d : List (List Char × List Char)) :
    (k, v) ∈ dictSet k v d := by
  unfold dictSet
  split
  · rename_i hany
    rw [List.any_eq_true] at hany
    obtain ⟨p, hp, hpk⟩ := hany
    rw [decide_eq_true_eq] at hpk
    rw [List.mem_map]
    refine ⟨p, hp, ?_⟩
    rw [if_pos hpk, hpk]
  · exact List.mem_append_right _ (List.mem_singleton.mpr rfl)

/-- The license section text set by `build_readme`:
`f"This project is under the {licence} license.\n\n"`. -/
def licenseText (licence : List Char) : List Char :=
  ("This project is under the ").toList ++ licence ++ (" license.\n\n").toList

/-- One table-of-contents line of the readme:
`f"- [{key}](#{helpers.validate_name(key)})\n"`. -/
def tocLine (nfkd : List Char → List Char) (key : List Char) : List Char :=
  ("- [").toList ++ key ++ ("](#").toList ++ validate_name nfkd key ++
    (")\n").toList

/-- One section of the readme, two consecutive writes:
`f"\n---\n\n### \x7bkey\x7d\n"` and `f"\x7bvalue\x7d\n"`. -/
def sectionText (p : List Char × List Char) : List Char :=
  ("\n---\n\n### ").toList ++ p.1 ++ ("\n").toList ++ p.2 ++ ("\n").toList

/-- The full text written by `actions.build_readme` when no readme exists:
title (uppercased name), description, table of contents, sections, footer
(`consts.PROGRAM`/`consts.VERSION` = `pyghusk/0.1.0`). -/
def renderReadme (nfkd : List Char → List Char) (name description : List Char)
    (content : List (List Char × List Char)) : List Char :=
  ("<h2 align=\x27center\x27>").toList ++ name.map pyUpper ++
    ("</h2>\n\n<p align=\x27center\x27>\n  <i>").toList ++ description ++
    ("</i>\n</p>\n\n#### Table of contents:\n").toList ++
    (content.map (fun p => tocLine nfkd p.1)).flatten ++
    ((content.map sectionText).flatten ++
      ("\n###### This file was generated by `pyghusk/0.1.0`").toList)

/-- Embedding of `actions.build_readme` (lines 458–499): sets `content["License"]` to the
license text, then opens `readme.md` with mode `"x"`: if the file already
exists nothing is written and a skip is reported; otherwise the rendered
readme is written. Returns the new state of the `readme.md` file and the
reported message. -/
def build_readme (nfkd : List Char → List Char)
    (name description licence folder : List Char)
    (content : List (List Char × List Char)) (readme : Option (List Char)) :
    Option (List Char) × List Char :=
  let content' := dictSet (("License").toList) (licenseText licence) content
  match readme with
  | some old =>
    (some old, ("A `readme.md` file was found. Skipping step.").toList)
  | none =>
    (some (renderReadme nfkd name description content'),
      ("A `readme.md` file was created in `").toList ++ folder ++
        ("`.").toList)

theorem infix_append_left (A : List Char) {x y : List Char} (h : x <:+: y) :
    x <:+: A ++ y := by
  obtain ⟨s, t, rfl⟩ := h
  exact ⟨A ++ s, t, by simp [List.append_assoc]⟩

/-! ## Claim C5 -/

set_option maxRecDepth 20000 in
/-- C5 (counterexample): `build_readme` writes the project name uppercased
(`name.upper()`), so the created readme does not contain the (normalized,
lowercase) project name verbatim: with name `"zq"`, description `"d"` and
license `"MIT"`, the file is created but `"zq"` is not an infix of its
content, while `"ZQ"` is. -/
theorem build_readme_name_case :
    (build_readme nfkdU (("zq").toList) (("d").toList) (("MIT").toList)
      (("/p").toList) [] none).1 =
      some (renderReadme nfkdU (("zq").toList) (("d").toList)
        (dictSet (("License").toList) (licenseText (("MIT").toList)) [])) ∧
    ¬ (("zq").toList <:+:
        renderReadme nfkdU (("zq").toList) (("d").toList)
          (dictSet (("License").toList) (licenseText (("MIT").toList)) [])) ∧
    (("ZQ").toList <:+:
        renderReadme nfkdU (("zq").toList) (("d").toList)
          (dictSet (("License").toList) (licenseText (("MIT").toList)) [])) := by
  refine ⟨rfl, by decide, by decide⟩

/-- C5 (amended): if no `readme.md` exists, `build_readme` creates one whose
content contains the project name uppercased, the description, and the
license text; if a `readme.md` already exists, its content is left
byte-for-byte unchanged and a skip message is reported, for every
pre-existing content. -/
theorem build_readme_spec (nfkd : List Char → List Char)
    (name description licence folder : List Char)
    (content : List (List Char × List Char)) :
    ((build_readme nfkd name description licence folder content none).1 =
      some (renderReadme nfkd name description
        (dictSet (("License").toList) (licenseText licence) content)) ∧
     name.map pyUpper <:+: renderReadme nfkd name description
        (dictSet (("License").toList) (licenseText licence) content) ∧
     description <:+: renderReadme nfkd name description
        (dictSet (("License").toList) (licenseText licence) content) ∧
     licenseText licence <:+: renderReadme nfkd name description
        (dictSet (("License").toList) (licenseText licence) content)) ∧
    (∀ old, build_readme nfkd name description licence folder content
        (some old) =
      (some old, ("A `readme.md` file was found. Skipping step.").toList)) := by
  refine ⟨⟨rfl, ?_, ?_, ?_⟩, fun old => rfl⟩
  · unfold renderReadme
    simp only [List.append_assoc]
    exact List.infix_append' _ _ _
  · unfold renderReadme
    simp only [List.append_assoc]
    exact infix_append_left _ (infix_append_left _ (infix_append_left _
      (List.prefix_append _ _).isInfix))
  · have h1 : ((("License").toList, licenseText licence)) ∈
        dictSet (("License").toList) (licenseText licence) content :=
      mem_dictSet _ _ _
    have h2 : sectionText ((("License").toList, licenseText licence)) ∈
        (dictSet (("License").toList) (licenseText licence) content).map
          sectionText :=
      List.mem_map_of_mem _ h1
    have h3 := List.infix_of_mem_flatten h2
    have h4 : licenseText licence <:+:
        sectionText ((("License").toList, licenseText licence)) := by
      unfold sectionText
      simp only [List.append_assoc]
      exact infix_append_left _ (infix_append_left _ (infix_append_left _
        (List.prefix_append _ _).isInfix))
    refine (h4.trans h3).trans ?_
    unfold renderReadme
    simp only [List.append_assoc]
    exact infix_append_left _ (infix_append_left _ (infix_append_left _
      (infix_append_left _ (infix_append_left _ (infix_append_left _
        (List.prefix_append _ _).isInfix)))))

theorem build_readme_spec_witness :
    build_readme nfkdU (("zq").toList) (("d").toList) (("MIT").toList)
      (("/p").toList) [] (some (("KEEP ME").toList)) =
      (some (("KEEP ME").toList),
        ("A `readme.md` file was found. Skipping step.").toList) :=
  (build_readme_spec nfkdU (("zq").toList) (("d").toList) (("MIT").toList)
    (("/p").toList) []).2 (("KEEP ME").toList)

/-! ## GitHub pages scaffolding (actions.py lines 399–422) -/

/-- One line of `_config.yml`: `f"\x7bkey\x7d: \x7bvalue\x7d\n"`. -/
def configLine (p : List Char × List Char) : List Char :=
  p.1 ++ (": ").toList ++ p.2 ++ ("\n").toList

/-- Embedding of `actions.build_gh_pages`: unconditionally copies the readme over
`docs/index.md` (the source comments "if a docs/index.md file already
exists, overwrite it") and always prints the created message; then sets
`content["description"]` and opens `docs/_config.yml` with mode `"x"`,
writing one `key: value` line per mapping entry if absent, reporting a skip
otherwise. Returns the new states of `docs/index.md` and `docs/_config.yml`
and the config message. -/
def build_gh_pages (description readmeContent : List Char)
    (content : List (List Char × List Char))
    (index config : Option (List Char)) :
    Option (List Char) × Option (List Char) × List Char :=
  let content' := dictSet (("description").toList) description content
  match index, config with
  | _, none =>
    (some readmeContent, some ((content'.map configLine).flatten),
      ("A `_config.yml` file was created in `/docs`.").toList)
  | _, some c =>
    (some readmeContent, some c,
      ("A `_config.yml` file was found. Skipping step.").toList)

theorem count_newline_configLines :
    ∀ d : List (List Char × List Char),
      (∀ p ∈ d, ('\n') ∉ p.1 ∧ ('\n') ∉ p.2) →
        List.count '\n' ((d.map configLine).flatten) = d.length := by
  intro d h
  induction d with
  | nil => rfl
  | cons p d ih =>
    obtain ⟨h1, h2⟩ := h p (List.mem_cons_self _ _)
    rw [List.map_cons, List.flatten_cons, List.count_append,
      ih (fun q hq => h q (List.mem_cons_of_mem _ hq))]
    have hline : List.count '\n' (configLine p) = 1 := by
      unfold configLine
      rw [List.count_append, List.count_append, List.count_append,
        List.count_eq_zero.mpr h1, List.count_eq_zero.mpr h2]
      decide
    rw [hline, List.length_cons]
    omega

/-! ## Claim C6 -/

/-- C6 (counterexample): `docs/index.md` is not created-only-if-absent —
`build_gh_pages` overwrites an existing `docs/index.md` (content `"OLD"`)
with the readme content (`"NEW"`). -/
theorem build_gh_pages_overwrites_index :
    (build_gh_pages (("d").toList) (("NEW").toList) []
      (some (("OLD").toList)) none).1 = some (("NEW").toList) ∧
    some ((("NEW").toList)) ≠ some ((("OLD").toList)) := by
  refine ⟨rfl, by decide⟩

/-- C6 (amended): `docs/index.md` is always overwritten with the readme
content, even when it already exists; `docs/_config.yml` is created only if
absent — written one `key: value` line per entry of the mapping (with the
`description` key set) — and when it already exists its content is left
unchanged and the step is a logged skip. -/
theorem build_gh_pages_spec (description readmeContent : List Char)
    (content : List (List Char × List Char)) :
    (∀ index config,
      (build_gh_pages description readmeContent content index config).1 =
        some readmeContent) ∧
    (∀ index,
      (build_gh_pages description readmeContent content index none).2 =
        (some (((dictSet (("description").toList) description content).map
            configLine).flatten),
         ("A `_config.yml` file was created in `/docs`.").toList)) ∧
    (∀ index c,
      (build_gh_pages description readmeContent content index (some c)).2 =
        (some c, ("A `_config.yml` file was found. Skipping step.").toList)) ∧
    ((∀ p ∈ dictSet (("description").toList) description content,
        ('\n') ∉ p.1 ∧ ('\n') ∉ p.2) →
      List.count '\n'
          (((dictSet (("description").toList) description content).map
            configLine).flatten) =
        (dictSet (("description").toList) description content).length) := by
  refine ⟨?_, fun index => rfl, fun index c => rfl,
    count_newline_configLines _⟩
  intro index config
  cases config with
  | none => rfl
  | some c => rfl

theorem build_gh_pages_spec_witness :
    (build_gh_pages (("d").toList) (("NEW").toList) []
      (some (("OLD").toList)) (some (("CFG").toList))).1 =
        some (("NEW").toList) ∧
    (build_gh_pages (("d").toList) (("NEW").toList) []
      (some (("OLD").toList)) (some (("CFG").toList))).2 =
        (some (("CFG").toList),
         ("A `_config.yml` file was found. Skipping step.").toList) ∧
    List.count '\n'
        (((dictSet (("description").toList) (("d").toList) []).map
          configLine).flatten) =
      (dictSet (("description").toList) (("d").toList) []).length := by
  have h := build_gh_pages_spec (("d").toList) (("NEW").toList) []
  exact ⟨h.1 (some (("OLD").toList)) (some (("CFG").toList)),
    h.2.2.1 (some (("OLD").toList)) (("CFG").toList),
    h.2.2.2 (by decide)⟩

/-! ## Directory creation (C7) -/

/-- Outcome of a directory-creating step. -/
inductive DirOutcome where
  | created : DirOutcome
  | existsSkip : DirOutcome
  | uncaughtError : DirOutcome
deriving DecidableEq

/-- Step 7 of `pyghusk.py` main (line 460):
`Path.mkdir(project_folder / ".vscode")` with no exception handling — an
existing directory raises an uncaught `FileExistsError`. -/
def main_mkdir_vscode (alreadyExists : Bool) : DirOutcome :=
  if alreadyExists then .uncaughtError else .created

/-- Directory creation of `actions.build_vscode_settings` (lines 299–321):
`try: Path.mkdir(folder / ".vscode") except FileExistsError: pass`. -/
def build_vscode_settings_mkdir (alreadyExists : Bool) : DirOutcome :=
  if alreadyExists then .existsSkip else .created

/-- Docs copy of `actions.copy_templates` (lines 431–438):
`try: shutil.copytree(...) except FileExistsError:` logged skip; only run
when GitHub pages are enabled. -/
def copy_templates_docs (ghPages docsExists : Bool) : Option DirOutcome :=
  if ghPages then some (if docsExists then .existsSkip else .created)
  else none

/-! ## Claim C7 -/

/-- C7 (code bug): directory creation is idempotent in
`actions.build_vscode_settings` and `actions.copy_templates` (an existing
directory is a no-op skip), but `pyghusk.py` main step 7 calls
`Path.mkdir` unprotected: when `.vscode` already exists it raises an
uncaught `FileExistsError` instead of skipping, contradicting the
skip-if-exists behavior of the same step in the refactored
`actions.build_vscode_settings`. -/
theorem mkdir_idempotence_divergence :
    build_vscode_settings_mkdir true = .existsSkip ∧
    build_vscode_settings_mkdir false = .created ∧
    copy_templates_docs true true = some .existsSkip ∧
    copy_templates_docs true false = some .created ∧
    main_mkdir_vscode true = .uncaughtError ∧
    DirOutcome.uncaughtError ≠ .existsSkip := by
  refine ⟨rfl, rfl, rfl, rfl, rfl, by decide⟩

/-! ## Pipeline executor (pyghusk.py main, steps 1–16) -/

/-- The fixed ordered steps of `pyghusk.py` `main` after confirmation
(`GH_PAGES` is the constant `True`, so the pages steps are included):
readme, template copy, pages files, virtualenv, linter install, interpreter
path, VSCode settings, `git init`, `git add -A`, `git commit`,
authentication, remote-repository creation, `git remote add origin`,
`git push`, pages enabling, personal-blog rebuild. -/
inductive Step where
  | readme | copyTemplates | pagesFiles | venv | linter | interpreter
  | vscode | gitInit | gitAdd | gitCommit | auth | createRemote
  | addOrigin | push | enablePages | rebuildBlog
deriving DecidableEq

/-- The steps of `main` in their fixed source order. -/
def pipelineSteps : List Step :=
  [.readme, .copyTemplates, .pagesFiles, .venv, .linter, .interpreter,
   .vscode, .gitInit, .gitAdd, .gitCommit, .auth, .createRemote,
   .addOrigin, .push, .enablePages, .rebuildBlog]

/-- The straight-line control flow of `main`: each step block performs its
side effect and, on failure (subprocess error, network error, failed
classification — `fails s = true` under the run's environment), prints the
error and calls `exit()`, so nothing after it runs. Returns the steps that
executed (the failing step included: it ran and reported failure) and
whether the run reached the end successfully. -/
def runPipeline (fails : Step → Bool) : List Step → List Step × Bool
  | [] => ([], true)
  | s :: rest =>
    if fails s then ([s], false)
    else
      let r := runPipeline fails rest
      (s :: r.1, r.2)

theorem runPipeline_fail_at (fails : Step → Bool) :
    ∀ (l : List Step) (i : Nat) (hi : i < l.length),
      fails (l.get ⟨i, hi⟩) = true →
      (∀ s ∈ l.take i, fails s = false) →
      runPipeline fails l = (l.take (i + 1), false) := by
  intro l
  induction l with
  | nil =>
    intro i hi
    exact absurd hi (by simp)
  | cons s rest ih =>
    intro i hi hfail hbefore
    cases i with
    | zero =>
      simp only [List.get] at hfail
      simp [runPipeline, hfail, List.take]
    | succ j =>
      have hs : fails s = false := by
        apply hbefore
        rw [List.take_succ_cons]
        exact List.mem_cons_self _ _
      simp only [List.get] at hfail
      have hrest := ih j (by simpa using hi) hfail
        (fun t ht => hbefore t
          (by rw [List.take_succ_cons]; exact List.mem_cons_of_mem _ ht))
      simp only [runPipeline, hs, Bool.false_eq_true, if_false, hrest, List.take]

/-! ## Claim C8 -/

/-- C8: fail-fast pipeline — for every environment (`fails` describes which
step would report failure in it) and every position `i` in the fixed step
sequence, if step `i` reports failure and the steps before it succeed, then
exactly the steps up to and including `i` execute: no step after `i`
executes any side effect, and the run terminates signaling failure. -/
theorem pipeline_fail_fast (fails : Step → Bool) (i : Nat)
    (hi : i < pipelineSteps.length)
    (hfail : fails (pipelineSteps.get ⟨i, hi⟩) = true)
    (hbefore : ∀ s ∈ pipelineSteps.take i, fails s = false) :
    (runPipeline fails pipelineSteps).1 = pipelineSteps.take (i + 1) ∧
    (runPipeline fails pipelineSteps).2 = false ∧
    ∀ j (hj : j < pipelineSteps.length), i < j →
      pipelineSteps.get ⟨j, hj⟩ ∉ (runPipeline fails pipelineSteps).1 := by
  have h := runPipeline_fail_at fails pipelineSteps i hi hfail hbefore
  rw [h]
  refine ⟨rfl, rfl, ?_⟩
  intro j hj hij hmem
  have hnodup : pipelineSteps.Nodup := by decide
  rw [List.mem_iff_getElem] at hmem
  obtain ⟨k, hk, hkeq⟩ := hmem
  have hk' : k < i + 1 := by
    have := hk
    rw [List.length_take] at this
    omega
  rw [List.getElem_take] at hkeq
  have hkj : k = j := (hnodup.getElem_inj_iff).mp hkeq
  omega

theorem pipeline_fail_fast_witness :
    (runPipeline (fun s => decide (s = Step.venv)) pipelineSteps).1 =
      pipelineSteps.take 4 ∧
    (runPipeline (fun s => decide (s = Step.venv)) pipelineSteps).2 = false := by
  have h := pipeline_fail_fast (fun s => decide (s = Step.venv)) 3
    (by decide) (by decide) (by decide)
  exact ⟨h.1, h.2.1⟩

end Pyghusk
